import Mathlib

/-!
Verification of the RoI event-tracking business logic
(`src/roi/business_logic.py`): the `Event` record and the
`RoIBusinessLogic` tracker with its single public operation `process`.

Embedding notes:
* Python dicts are insertion-ordered; `_event_dict` and `_active_events`
  are embedded as association lists (`List (String × _)`) with
  insertion-order-preserving update (`setVal`), append-on-new-key, and
  single-entry deletion (`delVal`).
* `str(uuid4())` produces a fresh opaque identifier on every call; it is
  embedded deterministically as a fresh counter value (`next_id`) carried
  in the tracker state.  Nothing in the logic inspects identifiers beyond
  storing and re-emitting them.
* `time.time()` (informational `creation_time`) is embedded as a `now`
  argument threaded into `process`.
* `detection["predictions"]` raises `KeyError` when the key is absent;
  the payload therefore carries `predictions : Option (List Pred)` and
  `process` returns `Except Unit _`, erroring before producing any state.
-/

namespace RoI

/-- A single prediction inside a frame's payload; the business logic reads
only its `classId` field. -/
structure Pred where
  classId : String
deriving DecidableEq, Repr

/-- A frame's detection payload.  `predictions = none` embeds a dict that
lacks the `"predictions"` key (a `KeyError` in the source); every other
field of the payload is opaque to the logic. -/
structure Detection where
  predictions : Option (List Pred)
deriving DecidableEq, Repr

/-- `Event`: one tracked class's detection streak
(`business_logic.py`, lines 9–65). -/
structure Event where
  detection : Detection
  num_detected_frames : Nat
  creation_time : Nat
  ttl : Int
  current_ttl : Int
deriving DecidableEq, Repr

/-- `Event.__init__(detection, ttl)`. -/
def Event.create (detection : Detection) (now : Nat) (ttl : Int) : Event :=
  { detection := detection, num_detected_frames := 1, creation_time := now,
    ttl := ttl, current_ttl := ttl }

/-- `Event._reset_ttl`. -/
def Event.reset_ttl (e : Event) : Event :=
  { e with current_ttl := e.ttl }

/-- `Event.no_detection`. -/
def Event.no_detection (e : Event) : Event :=
  { e with current_ttl := e.current_ttl - 1 }

/-- `Event.new_detection(detection)`. -/
def Event.new_detection (e : Event) (detection : Detection) : Event :=
  Event.reset_ttl
    { e with detection := detection,
             num_detected_frames := e.num_detected_frames + 1 }

/-- `Event.is_expired`. -/
def Event.is_expired (e : Event) : Bool :=
  e.current_ttl ≤ 0

/-- Lookup in an insertion-ordered dict (`d[k]` / `k in d`). -/
def getVal {α : Type} (k : String) : List (String × α) → Option α
  | [] => none
  | (k', v) :: rest => if k' = k then some v else getVal k rest

/-- Dict assignment `d[k] = v`: replaces in place when the key exists,
appends otherwise. -/
def setVal {α : Type} (k : String) (v : α) : List (String × α) → List (String × α)
  | [] => [(k, v)]
  | (k', v') :: rest =>
    if k' = k then (k', v) :: rest else (k', v') :: setVal k v rest

/-- Dict deletion `del d[k]`: removes the entry with key `k`. -/
def delVal {α : Type} (k : String) : List (String × α) → List (String × α)
  | [] => []
  | (k', v') :: rest => if k' = k then rest else (k', v') :: delVal k rest

/-- The signals `process` can emit: `EventStartedSignal(event_id, detection)`
and `EventEndedSignal(event_id, detection)`. -/
inductive Signal where
  | started (event_id : Nat) (detection : Detection)
  | ended (event_id : Nat) (detection : Detection)
deriving DecidableEq, Repr

/-- Whether a signal is an `EventStartedSignal`. -/
def Signal.isStarted : Signal → Bool
  | .started _ _ => true
  | .ended _ _ => false

/-- Whether a signal is an `EventEndedSignal`. -/
def Signal.isEnded : Signal → Bool
  | .started _ _ => false
  | .ended _ _ => true

/-- `RoIBusinessLogic` state: configuration plus the two class-keyed maps
and the fresh-identifier counter (which embeds `uuid4`). -/
structure RoIBusinessLogic where
  total_frames : Nat
  ttl : Int
  event_dict : List (String × Event)
  active_events : List (String × Nat)
  next_id : Nat
deriving DecidableEq, Repr

/-- `RoIBusinessLogic.__init__(total_frames, ttl)`. -/
def RoIBusinessLogic.init (total_frames : Nat) (ttl : Int) : RoIBusinessLogic :=
  { total_frames := total_frames, ttl := ttl, event_dict := [],
    active_events := [], next_id := 0 }

/-- `RoIBusinessLogic._is_start_event(key, event)`, with the fields of
`self` that it reads passed explicitly. -/
def is_start_event (total_frames : Nat) (active_events : List (String × Nat))
    (key : String) (event : Event) : Bool :=
  if event.num_detected_frames < total_frames then false
  else if (getVal key active_events).isSome then false
  else true

/-- `RoIBusinessLogic._is_end_event(key)`. -/
def is_end_event (active_events : List (String × Nat)) (key : String) : Bool :=
  if (getVal key active_events).isSome then true else false

/-- The loop of `RoIBusinessLogic._get_starting_events`: walks
`_event_dict` in order; each start event takes a fresh identifier, emits a
`started` signal and is recorded in `_active_events`.  Returns the emitted
signals, the updated `_active_events` and the updated counter. -/
def get_starting_events (total_frames : Nat) :
    List (String × Event) → List (String × Nat) → Nat →
      List Signal × List (String × Nat) × Nat
  | [], active, nid => ([], active, nid)
  | (k, event) :: rest, active, nid =>
    if is_start_event total_frames active k event then
      let out := get_starting_events total_frames rest (setVal k nid active) (nid + 1)
      (Signal.started nid event.detection :: out.1, out.2)
    else
      get_starting_events total_frames rest active nid

/-- The loop of `RoIBusinessLogic._get_ending_events`: walks `_event_dict`
in order; every expired entry is marked for deletion, and the active ones
additionally emit an `ended` signal and leave `_active_events`.  Returns
the emitted signals, the keys marked for deletion (`del_events`) and the
updated `_active_events`. -/
def get_ending_events_loop :
    List (String × Event) → List (String × Nat) →
      List Signal × List String × List (String × Nat)
  | [], active => ([], [], active)
  | (k, event) :: rest, active =>
    if event.is_expired then
      match getVal k active with
      | some eid =>
        let out := get_ending_events_loop rest (delVal k active)
        (Signal.ended eid event.detection :: out.1, k :: out.2.1, out.2.2)
      | none =>
        let out := get_ending_events_loop rest active
        (out.1, k :: out.2.1, out.2.2)
    else
      get_ending_events_loop rest active

/-- `RoIBusinessLogic._get_ending_events`: the loop above followed by the
deletion of every marked key from `_event_dict`.  Returns the emitted
signals, the updated `_event_dict` and the updated `_active_events`. -/
def get_ending_events (event_dict : List (String × Event))
    (active : List (String × Nat)) :
    List Signal × List (String × Event) × List (String × Nat) :=
  let out := get_ending_events_loop event_dict active
  (out.1, out.2.1.foldl (fun ed k => delVal k ed) event_dict, out.2.2)

/-- The class identifiers of a frame's predictions
(`current_frame_classes`, needed only for membership). -/
def classIds (preds : List Pred) : List String :=
  preds.map Pred.classId

/-- The update phase of `process`: for each prediction in payload order,
create an `Event` for an unseen class or call `new_detection` on the
existing one.  The whole payload is what gets stored, as in the source. -/
def update_events (detection : Detection) (now : Nat) (ttl : Int)
    (event_dict : List (String × Event)) (preds : List Pred) :
    List (String × Event) :=
  preds.foldl (fun ed p =>
    match getVal p.classId ed with
    | none => ed ++ [(p.classId, Event.create detection now ttl)]
    | some e => setVal p.classId (e.new_detection detection) ed) event_dict

/-- The decay phase of `process`: every tracked class not present in the
frame gets `no_detection`. -/
def decay (cur : List String) (event_dict : List (String × Event)) :
    List (String × Event) :=
  event_dict.map (fun kv => if cur.contains kv.1 then kv else (kv.1, kv.2.no_detection))

/-- `RoIBusinessLogic.process(detection)`: update phase, decay phase,
start detection, end detection; returns `none` (Python `None`) when no
signal was produced, and errors (Python `KeyError`) when the payload has
no `"predictions"` key. -/
def RoIBusinessLogic.process (st : RoIBusinessLogic) (now : Nat)
    (detection : Detection) :
    Except Unit (Option (List Signal) × RoIBusinessLogic) :=
  match detection.predictions with
  | none => Except.error ()
  | some preds =>
    let ed1 := update_events detection now st.ttl st.event_dict preds
    let ed2 := decay (classIds preds) ed1
    let s := get_starting_events st.total_frames ed2 st.active_events st.next_id
    let e := get_ending_events ed2 s.2.1
    let all_events := s.1 ++ e.1
    Except.ok
      (if all_events.isEmpty then none else some all_events,
       { st with event_dict := e.2.1, active_events := e.2.2, next_id := s.2.2 })

/-- `process` with the `KeyError` case mapped to "no output, state kept":
a convenience wrapper for iterating frames. -/
def RoIBusinessLogic.processOk (st : RoIBusinessLogic) (now : Nat)
    (detection : Detection) : Option (List Signal) × RoIBusinessLogic :=
  match st.process now detection with
  | Except.ok r => r
  | Except.error _ => (none, st)

/-- The tracker state after feeding the same payload `d` for `k`
consecutive frames. -/
def runFrames (now : Nat) (d : Detection) (st : RoIBusinessLogic) :
    Nat → RoIBusinessLogic
  | 0 => st
  | k + 1 => ((runFrames now d st k).processOk now d).2

/-- The output of the `(k+1)`-st consecutive frame of payload `d`. -/
def frameOut (now : Nat) (d : Detection) (st : RoIBusinessLogic) (k : Nat) :
    Option (List Signal) :=
  ((runFrames now d st k).processOk now d).1

/-- The tracker state after feeding an arbitrary list of payloads. -/
def runAll (now : Nat) : RoIBusinessLogic → List Detection → RoIBusinessLogic
  | st, [] => st
  | st, d :: ds => runAll now (st.processOk now d).2 ds

/-! ### Association-list lemmas -/

/-- The key list of a dict. -/
def keys {α : Type} (l : List (String × α)) : List String :=
  l.map Prod.fst

@[simp]
theorem getVal_nil {α : Type} (k : String) : getVal (α := α) k [] = none :=
  rfl

@[simp]
theorem getVal_cons {α : Type} (k k' : String) (v : α) (l : List (String × α)) :
    getVal k ((k', v) :: l) = if k' = k then some v else getVal k l :=
  rfl

theorem getVal_eq_none_iff {α : Type} (k : String) (l : List (String × α)) :
    getVal k l = none ↔ k ∉ keys l := by
  induction l with
  | nil => simp [keys]
  | cons hd tl ih =>
    obtain ⟨k', v⟩ := hd
    by_cases h : k' = k <;> simp [keys, h] at ih ⊢ <;> tauto

theorem getVal_isSome_iff {α : Type} (k : String) (l : List (String × α)) :
    (getVal k l).isSome = true ↔ k ∈ keys l := by
  rw [Option.isSome_iff_ne_none]
  constructor
  · intro h
    by_contra hk
    exact h ((getVal_eq_none_iff k l).2 hk)
  · intro h hn
    exact absurd ((getVal_eq_none_iff k l).1 hn) (by simp [h])

theorem mem_of_getVal {α : Type} {k : String} {v : α} {l : List (String × α)}
    (h : getVal k l = some v) : (k, v) ∈ l := by
  induction l with
  | nil => simp at h
  | cons hd tl ih =>
    obtain ⟨k', v'⟩ := hd
    by_cases hk : k' = k
    · subst hk
      simp at h
      simp [h]
    · simp [hk] at h
      simp [ih h]

theorem getVal_of_mem_of_nodup {α : Type} {k : String} {v : α}
    {l : List (String × α)} (hnd : (keys l).Nodup) (h : (k, v) ∈ l) :
    getVal k l = some v := by
  induction l with
  | nil => simp at h
  | cons hd tl ih =>
    obtain ⟨k', v'⟩ := hd
    simp only [keys, List.map_cons, List.nodup_cons] at hnd
    rcases List.mem_cons.1 h with h1 | h1
    · rw [Prod.ext_iff] at h1
      obtain ⟨rfl, rfl⟩ := h1
      simp
    · have hk : k' ≠ k := by
        rintro rfl
        exact hnd.1 (List.mem_map.2 ⟨(k', v), h1, rfl⟩)
      simp only [keys] at ih
      simp [hk, ih hnd.2 h1]

@[simp]
theorem getVal_setVal_self {α : Type} (k : String) (v : α) (l : List (String × α)) :
    getVal k (setVal k v l) = some v := by
  induction l with
  | nil => simp [setVal]
  | cons hd tl ih =>
    obtain ⟨k', v'⟩ := hd
    by_cases h : k' = k <;> simp [setVal, h, ih]

theorem getVal_setVal_ne {α : Type} {k k' : String} (hne : k' ≠ k) (v : α)
    (l : List (String × α)) : getVal k (setVal k' v l) = getVal k l := by
  induction l with
  | nil => simp [setVal, hne]
  | cons hd tl ih =>
    obtain ⟨k'', v''⟩ := hd
    by_cases h : k'' = k' <;> by_cases h2 : k'' = k <;>
      simp_all [setVal] <;> simp [h, h2, ih]

theorem getVal_delVal_ne {α : Type} {k k' : String} (hne : k' ≠ k)
    (l : List (String × α)) : getVal k (delVal k' l) = getVal k l := by
  induction l with
  | nil => simp [delVal]
  | cons hd tl ih =>
    obtain ⟨k'', v''⟩ := hd
    by_cases h : k'' = k' <;> by_cases h2 : k'' = k <;>
      simp_all [delVal] <;> simp [h, h2, ih]

theorem delVal_sublist {α : Type} (k : String) (l : List (String × α)) :
    (delVal k l).Sublist l := by
  induction l with
  | nil => simp [delVal]
  | cons hd tl ih =>
    obtain ⟨k', v'⟩ := hd
    by_cases h : k' = k
    · simp only [delVal, if_pos h]
      exact List.sublist_cons_self _ _
    · simp only [delVal, if_neg h]
      exact ih.cons₂ _

theorem keys_delVal_sublist {α : Type} (k : String) (l : List (String × α)) :
    (keys (delVal k l)).Sublist (keys l) :=
  (delVal_sublist k l).map Prod.fst

theorem keys_delVal_nodup {α : Type} (k : String) {l : List (String × α)}
    (h : (keys l).Nodup) : (keys (delVal k l)).Nodup :=
  h.sublist (keys_delVal_sublist k l)

theorem getVal_delVal_self {α : Type} (k : String) {l : List (String × α)}
    (hnd : (keys l).Nodup) : getVal k (delVal k l) = none := by
  induction l with
  | nil => simp [delVal]
  | cons hd tl ih =>
    obtain ⟨k', v'⟩ := hd
    simp only [keys, List.map_cons, List.nodup_cons] at hnd
    by_cases h : k' = k
    · subst h
      simp only [delVal, if_pos rfl]
      rw [getVal_eq_none_iff]
      exact hnd.1
    · simp only [delVal, if_neg h, getVal_cons, if_neg h]
      exact ih hnd.2

theorem mem_delVal {α : Type} {x : String × α} {k : String}
    {l : List (String × α)} (h : x ∈ delVal k l) : x ∈ l :=
  (delVal_sublist k l).mem h

theorem mem_keys_setVal {α : Type} {a k : String} (v : α)
    {l : List (String × α)} (h : a ∈ keys (setVal k v l)) :
    a ∈ keys l ∨ a = k := by
  induction l with
  | nil =>
    simp only [setVal, keys, List.map_cons, List.map_nil] at h
    exact Or.inr (by simpa using h)
  | cons hd tl ih =>
    obtain ⟨k', v'⟩ := hd
    by_cases hk : k' = k
    · simp only [setVal, if_pos hk, keys, List.map_cons] at h ⊢
      exact Or.inl h
    · simp only [setVal, if_neg hk, keys, List.map_cons, List.mem_cons] at h ⊢
      rcases h with h | h
      · exact Or.inl (Or.inl h)
      · rcases ih h with h1 | h1
        · exact Or.inl (Or.inr h1)
        · exact Or.inr h1

theorem keys_setVal_nodup {α : Type} (k : String) (v : α)
    {l : List (String × α)} (h : (keys l).Nodup) :
    (keys (setVal k v l)).Nodup := by
  induction l with
  | nil => simp [setVal, keys]
  | cons hd tl ih =>
    obtain ⟨k', v'⟩ := hd
    simp only [keys, List.map_cons, List.nodup_cons] at h
    by_cases hk : k' = k
    · subst hk
      simpa [setVal, keys, List.nodup_cons] using h
    · simp only [setVal, if_neg hk, keys, List.map_cons, List.nodup_cons]
      refine ⟨fun hmem => ?_, ih h.2⟩
      rcases mem_keys_setVal v (by simpa [keys] using hmem) with h1 | h1
      · exact h.1 (by simpa [keys] using h1)
      · exact hk h1

theorem getVal_foldl_delVal_not_mem {α : Type} {k : String} {dels : List String}
    (h : k ∉ dels) (l : List (String × α)) :
    getVal k (dels.foldl (fun ed d => delVal d ed) l) = getVal k l := by
  induction dels generalizing l with
  | nil => rfl
  | cons d ds ih =>
    simp at h
    push_neg at h
    simp [List.foldl]
    rw [ih h.2, getVal_delVal_ne (by simpa using Ne.symm h.1)]

/-! ### Single-class scenario: closed forms -/

/-- A payload whose predictions list holds exactly one prediction, of
class `c`. -/
def oneClass (c : String) : Detection :=
  ⟨some [⟨c⟩]⟩

/-- A payload with an empty predictions list. -/
def emptyFrame : Detection :=
  ⟨some []⟩

/-- Closed form of the tracker state after `k ≥ 1` consecutive
`oneClass c` frames starting from `RoIBusinessLogic.init N L`. -/
def singlePresent (N : Nat) (L : Int) (t : Nat) (c : String) (k : Nat) :
    RoIBusinessLogic :=
  { total_frames := N, ttl := L,
    event_dict := [(c, { detection := oneClass c, num_detected_frames := k,
                         creation_time := t, ttl := L, current_ttl := L })],
    active_events := if N ≤ k then [(c, 0)] else [],
    next_id := if N ≤ k then 1 else 0 }

theorem singlePresent_base (N : Nat) (L : Int) (t : Nat) (c : String)
    (hN : 1 ≤ N) (hL : 1 ≤ L) :
    (RoIBusinessLogic.init N L).processOk t (oneClass c) =
      (if 1 = N then some [Signal.started 0 (oneClass c)] else none,
       singlePresent N L t c 1) := by
  by_cases h1 : N ≤ 1
  · have hN1 : N = 1 := le_antisymm h1 hN
    subst hN1
    simp only [RoIBusinessLogic.processOk, RoIBusinessLogic.process,
      RoIBusinessLogic.init, update_events, List.foldl, decay, classIds,
      oneClass, List.map, getVal_nil, List.nil_append, List.contains_cons,
      beq_self_eq_true, Bool.true_or, if_true, Event.create]
    simp [get_starting_events, get_ending_events, get_ending_events_loop,
      is_start_event, Event.is_expired, singlePresent, setVal, oneClass,
      show ¬(L ≤ 0) by omega]
  · simp only [RoIBusinessLogic.processOk, RoIBusinessLogic.process,
      RoIBusinessLogic.init, update_events, List.foldl, decay, classIds,
      oneClass, List.map, getVal_nil, List.nil_append, List.contains_cons,
      beq_self_eq_true, Bool.true_or, if_true, Event.create]
    simp [get_starting_events, get_ending_events, get_ending_events_loop,
      is_start_event, Event.is_expired, singlePresent, setVal, oneClass, h1,
      show 1 < N by omega, show ¬(1 = N) by omega, show ¬(L ≤ 0) by omega]

theorem singlePresent_step (N : Nat) (L : Int) (t now : Nat) (c : String)
    (k : Nat) (hL : 1 ≤ L) :
    (singlePresent N L t c k).processOk now (oneClass c) =
      (if k + 1 = N then some [Signal.started 0 (oneClass c)] else none,
       singlePresent N L t c (k + 1)) := by
  by_cases h1 : N ≤ k
  · simp only [RoIBusinessLogic.processOk, RoIBusinessLogic.process,
      singlePresent, if_pos h1, update_events, List.foldl, decay, classIds,
      oneClass, List.map, getVal_cons, if_pos rfl, setVal,
      Event.new_detection, Event.reset_ttl, List.contains_cons,
      beq_self_eq_true, Bool.true_or, if_true]
    simp [get_starting_events, get_ending_events, get_ending_events_loop,
      is_start_event, Event.is_expired, singlePresent, setVal, oneClass, h1,
      show N ≤ k + 1 by omega, show ¬(k + 1 = N) by omega,
      show ¬(L ≤ 0) by omega]
  · simp only [RoIBusinessLogic.processOk, RoIBusinessLogic.process,
      singlePresent, if_neg h1, update_events, List.foldl, decay, classIds,
      oneClass, List.map, getVal_cons, if_pos rfl, setVal,
      Event.new_detection, Event.reset_ttl, List.contains_cons,
      beq_self_eq_true, Bool.true_or, if_true]
    by_cases h2 : k + 1 = N
    · simp [get_starting_events, get_ending_events, get_ending_events_loop,
        is_start_event, Event.is_expired, singlePresent, setVal, oneClass,
        h1, h2, show N ≤ k + 1 by omega, show ¬(k + 1 < N) by omega,
        show ¬(L ≤ 0) by omega]
    · simp [get_starting_events, get_ending_events, get_ending_events_loop,
        is_start_event, Event.is_expired, singlePresent, setVal, oneClass,
        h1, h2, show ¬(N ≤ k + 1) by omega, show k + 1 < N by omega,
        show ¬(L ≤ 0) by omega]

theorem runFrames_single (N : Nat) (L : Int) (t : Nat) (c : String)
    (hN : 1 ≤ N) (hL : 1 ≤ L) {k : Nat} (hk : 1 ≤ k) :
    runFrames t (oneClass c) (RoIBusinessLogic.init N L) k =
      singlePresent N L t c k := by
  induction k with
  | zero => omega
  | succ j ih =>
    rcases Nat.eq_or_lt_of_le hk with h | h
    · rw [runFrames]
      have h0 : j = 0 := by omega
      subst h0
      rw [runFrames, singlePresent_base N L t c hN hL]
    · rw [runFrames, ih (by omega), singlePresent_step N L t t c j hL]

/-- Closed form of a started single-class state after `i` consecutive
absent frames (valid while `i < timeToLiveLimit`): the event has lost `i`
time-to-live units. -/
def singleAbsent (N : Nat) (L : Int) (t : Nat) (c : String) (m i : Nat) :
    RoIBusinessLogic :=
  { total_frames := N, ttl := L,
    event_dict := [(c, { detection := oneClass c, num_detected_frames := m,
                         creation_time := t, ttl := L, current_ttl := L - i })],
    active_events := [(c, 0)], next_id := 1 }

/-- The state after the single tracked class has ended and been fully
forgotten. -/
def clearedState (N : Nat) (L : Int) : RoIBusinessLogic :=
  { total_frames := N, ttl := L, event_dict := [], active_events := [],
    next_id := 1 }

theorem singleAbsent_step (N : Nat) (L : Int) (t now : Nat) (c : String)
    (m i : Nat) :
    (singleAbsent N L t c m i).processOk now emptyFrame =
      if L ≤ (i : Int) + 1 then
        (some [Signal.ended 0 (oneClass c)], clearedState N L)
      else (none, singleAbsent N L t c m (i + 1)) := by
  by_cases hi : L ≤ (i : Int) + 1
  · simp only [RoIBusinessLogic.processOk, RoIBusinessLogic.process,
      singleAbsent, emptyFrame, update_events, List.foldl, decay, classIds,
      List.map, List.contains_nil, Bool.false_eq_true, if_false,
      Event.no_detection]
    simp [get_starting_events, get_ending_events, get_ending_events_loop,
      is_start_event, Event.is_expired, delVal, clearedState, hi,
      show L - (i : Int) - 1 ≤ 0 by omega]
  · simp only [RoIBusinessLogic.processOk, RoIBusinessLogic.process,
      singleAbsent, emptyFrame, update_events, List.foldl, decay, classIds,
      List.map, List.contains_nil, Bool.false_eq_true, if_false,
      Event.no_detection]
    simp [get_starting_events, get_ending_events, get_ending_events_loop,
      is_start_event, Event.is_expired, hi,
      show ¬(L - (i : Int) - 1 ≤ 0) by omega, sub_sub]

theorem clearedState_step (N : Nat) (L : Int) (now : Nat) :
    (clearedState N L).processOk now emptyFrame = (none, clearedState N L) := by
  simp [RoIBusinessLogic.processOk, RoIBusinessLogic.process, clearedState,
    emptyFrame, update_events, decay, classIds, get_starting_events,
    get_ending_events, get_ending_events_loop]

theorem runFrames_absent (N : Nat) (L : Int) (t now : Nat) (c : String)
    (m : Nat) (hL : 1 ≤ L) (i : Nat) :
    runFrames now emptyFrame (singleAbsent N L t c m 0) i =
      if (i : Int) < L then singleAbsent N L t c m i else clearedState N L := by
  induction i with
  | zero =>
    simp only [runFrames]
    rw [if_pos (show ((0 : Nat) : Int) < L by push_cast; omega)]
  | succ j ih =>
    rw [runFrames, ih]
    by_cases hj : (j : Int) < L
    · rw [if_pos hj, singleAbsent_step]
      by_cases hj1 : ((j : Nat) : Int) + 1 < L
      · rw [if_neg (by omega), if_pos (by push_cast; omega)]
      · rw [if_pos (by omega), if_neg (by push_cast; omega)]
    · rw [if_neg hj, clearedState_step, if_neg (by push_cast; omega)]

theorem singlePresent_eq_singleAbsent (N : Nat) (L : Int) (t : Nat)
    (c : String) : singlePresent N L t c N = singleAbsent N L t c N 0 := by
  simp [singlePresent, singleAbsent]

theorem clearedState_restart (N : Nat) (L : Int) (now : Nat) (c : String)
    (hL : 1 ≤ L) :
    getVal c (((clearedState N L).processOk now (oneClass c)).2).event_dict =
      some { detection := oneClass c, num_detected_frames := 1,
             creation_time := now, ttl := L, current_ttl := L } := by
  by_cases h1 : 1 < N
  · simp only [RoIBusinessLogic.processOk, RoIBusinessLogic.process,
      clearedState, update_events, List.foldl, decay, classIds, oneClass,
      List.map, getVal_nil, List.nil_append, List.contains_cons,
      beq_self_eq_true, Bool.true_or, if_true, Event.create]
    simp [get_starting_events, get_ending_events, get_ending_events_loop,
      is_start_event, Event.is_expired, setVal, oneClass, h1,
      show ¬(L ≤ 0) by omega]
  · simp only [RoIBusinessLogic.processOk, RoIBusinessLogic.process,
      clearedState, update_events, List.foldl, decay, classIds, oneClass,
      List.map, getVal_nil, List.nil_append, List.contains_cons,
      beq_self_eq_true, Bool.true_or, if_true, Event.create]
    simp [get_starting_events, get_ending_events, get_ending_events_loop,
      is_start_event, Event.is_expired, setVal, oneClass, h1,
      show ¬(L ≤ 0) by omega]

/-! ### Claim theorems -/

/-- C1: for a tracker with `requiredFrameCount = N` (`N ≥ 1`) and a class
first seen at frame 1 that is detected exactly once per frame in every
subsequent frame, `process` emits a Started signal for that class exactly
once — on frame `N`, which is the frame where the class's
`detectedFrameCount` first reaches `N` (the count after frame `j + 1`
equals `j + 1`) — and never again while the class remains active. -/
theorem C1_started_exactly_at_threshold (N : Nat) (L : Int) (t : Nat)
    (c : String) (hN : 1 ≤ N) (hL : 1 ≤ L) (j : Nat) :
    (frameOut t (oneClass c) (RoIBusinessLogic.init N L) j =
        if j + 1 = N then some [Signal.started 0 (oneClass c)] else none)
    ∧ getVal c
        (runFrames t (oneClass c) (RoIBusinessLogic.init N L) (j + 1)).event_dict =
        some { detection := oneClass c, num_detected_frames := j + 1,
               creation_time := t, ttl := L, current_ttl := L } := by
  constructor
  · rw [frameOut]
    cases j with
    | zero =>
      rw [runFrames, singlePresent_base N L t c hN hL]
    | succ i =>
      rw [runFrames_single N L t c hN hL (by omega),
        singlePresent_step N L t t c _ hL]
  · rw [runFrames_single N L t c hN hL (by omega)]
    simp [singlePresent]

/-- Witness for C1 at `N = 2`, `L = 1`, class `"car"`, frame 2. -/
theorem C1_started_exactly_at_threshold_witness :
    (frameOut 0 (oneClass "car") (RoIBusinessLogic.init 2 1) 1 =
        if 1 + 1 = 2 then some [Signal.started 0 (oneClass "car")] else none)
    ∧ getVal "car"
        (runFrames 0 (oneClass "car") (RoIBusinessLogic.init 2 1) 2).event_dict =
        some { detection := oneClass "car", num_detected_frames := 2,
               creation_time := 0, ttl := 1, current_ttl := 1 } :=
  C1_started_exactly_at_threshold 2 1 0 "car" (by norm_num) (by norm_num) 1

/-- C2: once a class is active, if it is absent from `timeToLiveLimit = L`
consecutive frames, an Ended signal is emitted exactly once — on the
absence frame where `remainingTimeToLive` first reaches `≤ 0`, namely the
`L`-th — after which both maps no longer contain the class
(`clearedState`), and a later re-appearance creates a fresh `Event` with
`detectedFrameCount = 1`. -/
theorem C2_ended_exactly_at_ttl_expiry (N : Nat) (L : Int) (t now : Nat)
    (c : String) (hN : 1 ≤ N) (hL : 1 ≤ L) (i : Nat) :
    (frameOut now emptyFrame
        (runFrames t (oneClass c) (RoIBusinessLogic.init N L) N) i =
        if (i : Int) + 1 = L then some [Signal.ended 0 (oneClass c)] else none)
    ∧ (L ≤ (i : Int) + 1 →
        runFrames now emptyFrame
          (runFrames t (oneClass c) (RoIBusinessLogic.init N L) N) (i + 1) =
          clearedState N L)
    ∧ getVal c (((clearedState N L).processOk now (oneClass c)).2).event_dict =
        some { detection := oneClass c, num_detected_frames := 1,
               creation_time := now, ttl := L, current_ttl := L } := by
  have hstart : runFrames t (oneClass c) (RoIBusinessLogic.init N L) N =
      singleAbsent N L t c N 0 := by
    rw [runFrames_single N L t c hN hL hN, singlePresent_eq_singleAbsent]
  refine ⟨?_, ?_, clearedState_restart N L now c hL⟩
  · rw [frameOut, hstart, runFrames_absent N L t now c N hL i]
    by_cases hi : (i : Int) < L
    · rw [if_pos hi, singleAbsent_step]
      by_cases hi1 : L ≤ (i : Int) + 1
      · rw [if_pos hi1, if_pos (by omega)]
      · rw [if_neg hi1, if_neg (by omega)]
    · rw [if_neg hi, clearedState_step, if_neg (by omega)]
  · intro hi
    rw [hstart, runFrames, runFrames_absent N L t now c N hL i]
    by_cases hi0 : (i : Int) < L
    · rw [if_pos hi0, singleAbsent_step, if_pos hi]
    · rw [if_neg hi0, clearedState_step]

/-- Witness for C2 at `N = 1`, `L = 2`, class `"car"`, absence frame 2. -/
theorem C2_ended_exactly_at_ttl_expiry_witness :
    (frameOut 5 emptyFrame
        (runFrames 0 (oneClass "car") (RoIBusinessLogic.init 1 2) 1) 1 =
        if ((1 : Nat) : Int) + 1 = 2 then some [Signal.ended 0 (oneClass "car")]
        else none)
    ∧ ((2 : Int) ≤ ((1 : Nat) : Int) + 1 →
        runFrames 5 emptyFrame
          (runFrames 0 (oneClass "car") (RoIBusinessLogic.init 1 2) 1) 2 =
          clearedState 1 2)
    ∧ getVal "car"
        (((clearedState 1 2).processOk 5 (oneClass "car")).2).event_dict =
        some { detection := oneClass "car", num_detected_frames := 1,
               creation_time := 5, ttl := 2, current_ttl := 2 } :=
  C2_ended_exactly_at_ttl_expiry 1 2 0 5 "car" (by norm_num) (by norm_num) 1

theorem get_starting_events_all_started (total : Nat)
    (ed : List (String × Event)) (active : List (String × Nat)) (nid : Nat) :
    ∀ s ∈ (get_starting_events total ed active nid).1, s.isStarted = true := by
  induction ed generalizing active nid with
  | nil => simp [get_starting_events]
  | cons hd tl ih =>
    obtain ⟨k, ev⟩ := hd
    intro s hs
    by_cases h : is_start_event total active k ev
    · simp only [get_starting_events, if_pos h, List.mem_cons] at hs
      rcases hs with hs | hs
      · subst hs
        rfl
      · exact ih _ _ s hs
    · simp only [get_starting_events, if_neg h] at hs
      exact ih _ _ s hs

theorem get_ending_events_loop_all_ended (ed : List (String × Event))
    (active : List (String × Nat)) :
    ∀ s ∈ (get_ending_events_loop ed active).1, s.isEnded = true := by
  induction ed generalizing active with
  | nil => simp [get_ending_events_loop]
  | cons hd tl ih =>
    obtain ⟨k, ev⟩ := hd
    intro s hs
    by_cases h : ev.is_expired
    · rcases hv : getVal k active with _ | eid
      · simp only [get_ending_events_loop, if_pos h, hv] at hs
        exact ih _ s hs
      · simp only [get_ending_events_loop, if_pos h, hv, List.mem_cons] at hs
        rcases hs with hs | hs
        · subst hs
          rfl
        · exact ih _ s hs
    · simp only [get_ending_events_loop, if_neg h] at hs
      exact ih _ s hs

/-- C5: whenever a `process` call produces no Started and no Ended signal,
its result is the explicit no-events marker `none` and never the empty
list; in particular an empty predictions list on a fresh tracker yields
the marker and leaves the state untouched. -/
theorem C5_none_marker_never_empty_list :
    (∀ (st : RoIBusinessLogic) (now : Nat) (d : Detection)
        (out : Option (List Signal)) (st' : RoIBusinessLogic),
        st.process now d = Except.ok (out, st') → out ≠ some [])
    ∧ ∀ (N : Nat) (L : Int) (now : Nat),
        (RoIBusinessLogic.init N L).process now emptyFrame =
          Except.ok (none, RoIBusinessLogic.init N L) := by
  constructor
  · intro st now d out st' h
    rcases hd : d.predictions with _ | preds
    · rw [RoIBusinessLogic.process, hd] at h
      exact absurd h (by simp)
    · rw [RoIBusinessLogic.process, hd] at h
      simp only [Except.ok.injEq, Prod.mk.injEq] at h
      rcases h with ⟨h1, -⟩
      split at h1
      · rw [← h1]
        simp
      · rw [← h1]
        intro hcon
        simp only [Option.some.injEq] at hcon
        simp [hcon] at *
  · intro N L now
    rfl

/-- Witness for C5: a call that emits a Started signal indeed does not
return `some []`, and the fresh-tracker empty-frame call returns `none`. -/
theorem C5_none_marker_never_empty_list_witness :
    some [Signal.started 0 (oneClass "car")] ≠ some ([] : List Signal) :=
  C5_none_marker_never_empty_list.1 (RoIBusinessLogic.init 1 2) 0
    (oneClass "car") (some [Signal.started 0 (oneClass "car")])
    ⟨1, 2, [("car", ⟨oneClass "car", 1, 0, 2, 2⟩)], [("car", 0)], 1⟩
    (by rfl)

/-- C6: every non-empty result of `process` is the concatenation of the
call's Started signals followed by its Ended signals: no Ended signal
precedes a Started one. -/
theorem C6_starts_precede_ends (st : RoIBusinessLogic) (now : Nat)
    (d : Detection) (l : List Signal) (st' : RoIBusinessLogic)
    (h : st.process now d = Except.ok (some l, st')) :
    ∃ ss es, l = ss ++ es ∧ (∀ s ∈ ss, s.isStarted = true)
      ∧ ∀ s ∈ es, s.isEnded = true := by
  rcases hd : d.predictions with _ | preds
  · rw [RoIBusinessLogic.process, hd] at h
    exact absurd h (by simp)
  · rw [RoIBusinessLogic.process, hd] at h
    simp only [Except.ok.injEq, Prod.mk.injEq] at h
    rcases h with ⟨h1, -⟩
    split at h1
    · exact absurd h1 (by simp)
    · simp only [Option.some.injEq] at h1
      refine ⟨_, _, h1.symm, ?_, ?_⟩
      · exact get_starting_events_all_started _ _ _ _
      · exact get_ending_events_loop_all_ended _ _

/-- Witness for C6 on a concrete call that emits one Started signal. -/
theorem C6_starts_precede_ends_witness :
    ∃ ss es, [Signal.started 0 (oneClass "car")] = ss ++ es
      ∧ (∀ s ∈ ss, s.isStarted = true) ∧ ∀ s ∈ es, s.isEnded = true :=
  C6_starts_precede_ends (RoIBusinessLogic.init 1 2) 0 (oneClass "car")
    [Signal.started 0 (oneClass "car")]
    ⟨1, 2, [("car", ⟨oneClass "car", 1, 0, 2, 2⟩)], [("car", 0)], 1⟩
    (by rfl)

/-- C7: an `Event` created with `timeToLiveLimit = L` satisfies
`current_ttl ≤ ttl` (with `ttl = L` constant); the predicate is preserved
by `no_detection` and `new_detection`, and `is_expired` returns `true`
exactly when `current_ttl ≤ 0`. -/
theorem C7_ttl_invariant (d d' : Detection) (now : Nat) (L : Int) (e : Event) :
    ((Event.create d now L).current_ttl ≤ (Event.create d now L).ttl
        ∧ (Event.create d now L).ttl = L)
    ∧ (e.current_ttl ≤ e.ttl →
        e.no_detection.current_ttl ≤ e.no_detection.ttl)
    ∧ (e.current_ttl ≤ e.ttl →
        (e.new_detection d').current_ttl ≤ (e.new_detection d').ttl)
    ∧ (e.is_expired = true ↔ e.current_ttl ≤ 0) := by
  refine ⟨⟨le_refl _, rfl⟩, fun h => ?_, fun _ => ?_, ?_⟩
  · simp only [Event.no_detection]
    omega
  · simp [Event.new_detection, Event.reset_ttl]
  · simp [Event.is_expired]

/-- Witness for C7 at a concrete event with `current_ttl = 2 ≤ ttl = 3`. -/
theorem C7_ttl_invariant_witness :
    ((Event.create emptyFrame 0 3).current_ttl ≤ (Event.create emptyFrame 0 3).ttl
        ∧ (Event.create emptyFrame 0 3).ttl = 3)
    ∧ ((⟨emptyFrame, 1, 0, 3, 2⟩ : Event).no_detection.current_ttl ≤
        (⟨emptyFrame, 1, 0, 3, 2⟩ : Event).no_detection.ttl)
    ∧ (((⟨emptyFrame, 1, 0, 3, 2⟩ : Event).new_detection emptyFrame).current_ttl ≤
        ((⟨emptyFrame, 1, 0, 3, 2⟩ : Event).new_detection emptyFrame).ttl)
    ∧ ((⟨emptyFrame, 1, 0, 3, 2⟩ : Event).is_expired = true ↔
        (⟨emptyFrame, 1, 0, 3, 2⟩ : Event).current_ttl ≤ 0) := by
  have h := C7_ttl_invariant emptyFrame emptyFrame 0 3 ⟨emptyFrame, 1, 0, 3, 2⟩
  exact ⟨h.1, h.2.1 (by decide), h.2.2.1 (by decide), h.2.2.2⟩

/-- C10: a payload whose `"predictions"` key is absent makes `process`
fail with the key-lookup error before any state is produced: the error
result carries no successor state, and the total wrapper `processOk`
returns the tracker state unchanged. -/
theorem C10_missing_predictions_fails_without_mutation
    (st : RoIBusinessLogic) (now : Nat) (d : Detection)
    (h : d.predictions = none) :
    st.process now d = Except.error ()
      ∧ st.processOk now d = (none, st) := by
  constructor
  · rw [RoIBusinessLogic.process, h]
  · rw [RoIBusinessLogic.processOk, RoIBusinessLogic.process, h]

/-- Witness for C10 on a concrete stateful tracker and the key-less
payload. -/
theorem C10_missing_predictions_fails_without_mutation_witness :
    (singlePresent 3 2 0 "car" 1).process 7 ⟨none⟩ = Except.error ()
      ∧ (singlePresent 3 2 0 "car" 1).processOk 7 ⟨none⟩ =
        (none, singlePresent 3 2 0 "car" 1) :=
  C10_missing_predictions_fails_without_mutation
    (singlePresent 3 2 0 "car" 1) 7 ⟨none⟩ rfl

/-! ### Deletion and filtering lemmas for the end-detection phase -/

theorem getVal_append {α : Type} (k : String) (l1 l2 : List (String × α)) :
    getVal k (l1 ++ l2) =
      match getVal k l1 with
      | some v => some v
      | none => getVal k l2 := by
  induction l1 with
  | nil => simp
  | cons hd tl ih =>
    obtain ⟨k', v'⟩ := hd
    by_cases h : k' = k <;> simp [h, ih]

theorem getVal_isSome_of_mem {α : Type} {k : String} {v : α}
    {l : List (String × α)} (h : (k, v) ∈ l) : (getVal k l).isSome = true :=
  (getVal_isSome_iff k l).2 (List.mem_map.2 ⟨(k, v), h, rfl⟩)

theorem getVal_delVal_none {α : Type} {k k' : String} {l : List (String × α)}
    (h : getVal k l = none) : getVal k (delVal k' l) = none := by
  rcases hv : getVal k (delVal k' l) with _ | v
  · rfl
  · have hm : (k, v) ∈ l := mem_delVal (mem_of_getVal hv)
    exact absurd (List.mem_map.2 ⟨(k, v), hm, rfl⟩) ((getVal_eq_none_iff k l).1 h)

theorem foldl_delVal_sublist {α : Type} (dels : List String)
    (l : List (String × α)) :
    (dels.foldl (fun ed k => delVal k ed) l).Sublist l := by
  induction dels generalizing l with
  | nil => exact List.Sublist.refl l
  | cons d ds ih => exact (ih (delVal d l)).trans (delVal_sublist d l)

theorem getVal_foldl_delVal_none {α : Type} {k : String} {l : List (String × α)}
    (dels : List String) (h : getVal k l = none) :
    getVal k (dels.foldl (fun ed d => delVal d ed) l) = none := by
  rcases hv : getVal k (dels.foldl (fun ed d => delVal d ed) l) with _ | v
  · rfl
  · have hm : (k, v) ∈ l := (foldl_delVal_sublist dels l).mem (mem_of_getVal hv)
    exact absurd (List.mem_map.2 ⟨(k, v), hm, rfl⟩) ((getVal_eq_none_iff k l).1 h)

theorem getVal_foldl_delVal_mem_none {α : Type} {k : String} {dels : List String}
    (hk : k ∈ dels) {l : List (String × α)} (hnd : (keys l).Nodup) :
    getVal k (dels.foldl (fun ed d => delVal d ed) l) = none := by
  induction dels generalizing l with
  | nil => simp at hk
  | cons d ds ih =>
    rcases List.mem_cons.1 hk with h | h
    · subst h
      exact getVal_foldl_delVal_none ds (getVal_delVal_self k hnd)
    · exact ih h (hnd.sublist (keys_delVal_sublist d l))

theorem foldl_delVal_cons_ne {α : Type} {k0 : String} (v0 : α)
    {dels : List String} (h : ∀ k ∈ dels, k ≠ k0) (l : List (String × α)) :
    dels.foldl (fun ed d => delVal d ed) ((k0, v0) :: l) =
      (k0, v0) :: dels.foldl (fun ed d => delVal d ed) l := by
  induction dels generalizing l with
  | nil => rfl
  | cons d ds ih =>
    have hd0 : k0 ≠ d := fun he => h d (List.mem_cons_self d ds) he.symm
    simp only [List.foldl]
    rw [delVal, if_neg hd0]
    exact ih (fun k hk => h k (List.mem_cons_of_mem d hk)) _

theorem keys_filter_mem {α : Type} {k : String} (q : String × α → Bool)
    {l : List (String × α)} (h : k ∈ keys (l.filter q)) : k ∈ keys l :=
  (List.Sublist.map Prod.fst (List.filter_sublist l)).mem h

/-- With duplicate-free keys, deleting exactly the keys of the entries
satisfying `q` leaves exactly the entries refuting `q`, in order. -/
theorem foldl_delVal_keys_filter {α : Type} (q : String × α → Bool)
    {l : List (String × α)} (hnd : (keys l).Nodup) :
    (keys (l.filter q)).foldl (fun ed d => delVal d ed) l =
      l.filter (fun kv => !q kv) := by
  induction l with
  | nil => rfl
  | cons hd tl ih =>
    obtain ⟨k0, v0⟩ := hd
    simp only [keys, List.map_cons, List.nodup_cons] at hnd
    rcases hq : q (k0, v0) with _ | _
    · rw [List.filter_cons_of_neg (by simp [hq]),
        List.filter_cons_of_pos (by simp [hq])]
      rw [foldl_delVal_cons_ne v0
        (fun k hk => fun he => hnd.1 (by simpa [keys, he] using keys_filter_mem q hk)) tl]
      rw [ih hnd.2]
    · rw [List.filter_cons_of_pos (by simp [hq]),
        List.filter_cons_of_neg (by simp [hq])]
      simp only [keys, List.map_cons, List.foldl_cons]
      rw [delVal, if_pos rfl]
      exact ih hnd.2

theorem end_loop_dels (ed : List (String × Event))
    (active : List (String × Nat)) :
    (get_ending_events_loop ed active).2.1 =
      keys (ed.filter (fun kv => kv.2.is_expired)) := by
  induction ed generalizing active with
  | nil => rfl
  | cons hd tl ih =>
    obtain ⟨k, ev⟩ := hd
    rcases hexp : ev.is_expired with _ | _
    · rw [List.filter_cons_of_neg (by simp [hexp])]
      simp only [get_ending_events_loop, hexp, Bool.false_eq_true, if_false]
      exact ih active
    · rw [List.filter_cons_of_pos (by simp [hexp])]
      simp only [get_ending_events_loop, hexp, if_true]
      rcases hv : getVal k active with _ | eid
      · simp [keys, ih]
      · simp [keys, ih]

/-- With duplicate-free keys, the end-detection phase leaves exactly the
non-expired entries of `_event_dict`, in order. -/
theorem get_ending_events_dict (ed : List (String × Event))
    (active : List (String × Nat)) (hnd : (keys ed).Nodup) :
    (get_ending_events ed active).2.1 =
      ed.filter (fun kv => !kv.2.is_expired) := by
  rw [get_ending_events]
  simp only
  rw [end_loop_dels, foldl_delVal_keys_filter _ hnd]

/-! ### Update-phase lemmas -/

/-- How many predictions of a frame carry class identifier `c`. -/
def classCount (c : String) (preds : List Pred) : Nat :=
  (preds.filter (fun p => p.classId == c)).length

@[simp]
theorem classCount_nil (c : String) : classCount c [] = 0 :=
  rfl

theorem classCount_cons (c : String) (p : Pred) (ps : List Pred) :
    classCount c (p :: ps) =
      if p.classId = c then classCount c ps + 1 else classCount c ps := by
  by_cases h : p.classId = c
  · rw [if_pos h, classCount, List.filter_cons_of_pos (by simp [h]), classCount]
    simp
  · rw [if_neg h, classCount, List.filter_cons_of_neg (by simp [h]), classCount]

theorem contains_classIds_of_classCount {c : String} {preds : List Pred}
    (h : classCount c preds ≠ 0) : (classIds preds).contains c = true := by
  induction preds with
  | nil => simp [classCount] at h
  | cons p ps ih =>
    rw [classCount_cons] at h
    by_cases hp : p.classId = c
    · simp [classIds, hp]
    · rw [if_neg hp] at h
      simpa [classIds, List.contains_cons] using Or.inr (by simpa [classIds] using ih h)

theorem classCount_eq_zero_of_not_contains {c : String} {preds : List Pred}
    (h : (classIds preds).contains c = false) : classCount c preds = 0 := by
  by_contra hc
  rw [contains_classIds_of_classCount hc] at h
  exact absurd h (by simp)

/-- The effect of the whole update phase on one class `c`: an existing
event gains `classCount c preds` detections (and a refreshed time-to-live
when that count is positive); a class with no event ends up with a fresh
event whose `detectedFrameCount` is exactly the occurrence count. -/
theorem getVal_update_events (d : Detection) (now : Nat) (L : Int)
    (preds : List Pred) :
    ∀ (ed : List (String × Event)) (c : String),
      getVal c (update_events d now L ed preds) =
        match getVal c ed with
        | some e =>
          some (if classCount c preds = 0 then e else
            { detection := d,
              num_detected_frames := e.num_detected_frames + classCount c preds,
              creation_time := e.creation_time, ttl := e.ttl,
              current_ttl := e.ttl })
        | none =>
          if classCount c preds = 0 then none else
            some { detection := d, num_detected_frames := classCount c preds,
                   creation_time := now, ttl := L, current_ttl := L } := by
  induction preds with
  | nil =>
    intro ed c
    rcases h : getVal c ed with _ | e <;> simp [update_events, h]
  | cons p ps ih =>
    intro ed c
    have hstep : update_events d now L ed (p :: ps) =
        update_events d now L
          (match getVal p.classId ed with
           | none => ed ++ [(p.classId, Event.create d now L)]
           | some e => setVal p.classId (e.new_detection d) ed) ps := by
      rcases hp : getVal p.classId ed with _ | e <;>
        simp [update_events, List.foldl, hp]
    rw [hstep]
    by_cases hpc : p.classId = c
    · subst hpc
      rcases hc : getVal p.classId ed with _ | e
      · rw [ih, getVal_append, hc]
        simp only [getVal_cons, if_pos rfl, getVal_nil]
        rw [classCount_cons, if_pos rfl]
        rcases hcnt : classCount p.classId ps with _ | n
        · simp [Event.create]
        · simp [Event.create]
          omega
      · rw [ih, getVal_setVal_self]
        simp only
        rw [classCount_cons, if_pos rfl]
        rcases hcnt : classCount p.classId ps with _ | n
        · simp [Event.new_detection, Event.reset_ttl]
        · simp [Event.new_detection, Event.reset_ttl]
          omega
    · rcases hc : getVal p.classId ed with _ | e
      · rw [ih, getVal_append]
        rcases hcc : getVal c ed with _ | ec
        · simp only [getVal_cons, if_neg hpc, getVal_nil]
          rw [classCount_cons, if_neg hpc]
        · simp only
          rw [classCount_cons, if_neg hpc]
      · rw [ih, getVal_setVal_ne hpc]
        rcases hcc : getVal c ed with _ | ec <;> simp only <;>
          rw [classCount_cons, if_neg hpc]

theorem update_events_keys_nodup (d : Detection) (now : Nat) (L : Int)
    (preds : List Pred) :
    ∀ ed : List (String × Event), (keys ed).Nodup →
      (keys (update_events d now L ed preds)).Nodup := by
  induction preds with
  | nil => intro ed h; exact h
  | cons p ps ih =>
    intro ed h
    have hstep : update_events d now L ed (p :: ps) =
        update_events d now L
          (match getVal p.classId ed with
           | none => ed ++ [(p.classId, Event.create d now L)]
           | some e => setVal p.classId (e.new_detection d) ed) ps := by
      rcases hp : getVal p.classId ed with _ | e <;>
        simp [update_events, List.foldl, hp]
    rw [hstep]
    rcases hp : getVal p.classId ed with _ | e
    · refine ih _ ?_
      have hnotin : p.classId ∉ keys ed := (getVal_eq_none_iff _ _).1 hp
      simp only [keys, List.map_append, List.map_cons, List.map_nil]
      simp only [keys] at h hnotin
      simp [List.nodup_append, h, hnotin]
    · exact ih _ (keys_setVal_nodup _ _ h)

theorem keys_decay (cur : List String) (ed : List (String × Event)) :
    keys (decay cur ed) = keys ed := by
  induction ed with
  | nil => rfl
  | cons hd tl ih =>
    obtain ⟨k, e⟩ := hd
    show ((if cur.contains k then (k, e) else (k, e.no_detection)).1 ::
        keys (decay cur tl)) = k :: keys tl
    by_cases h : cur.contains k
    · rw [if_pos h, ih]
    · rw [if_neg h, ih]

theorem getVal_decay (cur : List String) :
    ∀ (ed : List (String × Event)) (c : String),
      getVal c (decay cur ed) =
        (getVal c ed).map (fun e => if cur.contains c then e else e.no_detection) := by
  intro ed c
  induction ed with
  | nil => rfl
  | cons hd tl ih =>
    obtain ⟨k, e⟩ := hd
    show getVal c ((if cur.contains k then (k, e) else (k, e.no_detection)) ::
        decay cur tl) = _
    by_cases hcon : cur.contains k
    · rw [if_pos hcon]
      by_cases hk : k = c
      · subst hk
        simp only [getVal_cons]
        simp at hcon
        simp [hcon]
      · simp only [getVal_cons, if_neg hk]
        exact ih
    · rw [if_neg hcon]
      by_cases hk : k = c
      · subst hk
        simp only [getVal_cons]
        simp at hcon
        simp [hcon]
      · simp only [getVal_cons, if_neg hk]
        exact ih

theorem getVal_filter_some {q : String × Event → Bool} {c : String} {e : Event}
    {l : List (String × Event)} (hnd : (keys l).Nodup)
    (h : getVal c l = some e) (hq : q (c, e) = true) :
    getVal c (l.filter q) = some e :=
  getVal_of_mem_of_nodup
    (hnd.sublist (List.Sublist.map Prod.fst (List.filter_sublist l)))
    (List.mem_filter.2 ⟨mem_of_getVal h, hq⟩)

theorem getVal_filter_none {q : String × Event → Bool} {c : String} {e : Event}
    {l : List (String × Event)} (hnd : (keys l).Nodup)
    (h : getVal c l = some e) (hq : q (c, e) = false) :
    getVal c (l.filter q) = none := by
  rcases hv : getVal c (l.filter q) with _ | v
  · rfl
  · have hm := List.mem_filter.1 (mem_of_getVal hv)
    have : v = e := by
      have := getVal_of_mem_of_nodup hnd hm.1
      rw [h] at this
      exact (Option.some.inj this).symm
    subst this
    rw [hq] at hm
    exact absurd hm.2 (by simp)

/-- One unfolding of `process` on a payload that has a predictions list. -/
theorem process_eq (st : RoIBusinessLogic) (now : Nat) (d : Detection)
    (preds : List Pred) (hd : d.predictions = some preds) :
    st.process now d =
      Except.ok
        (if ((get_starting_events st.total_frames
                (decay (classIds preds)
                  (update_events d now st.ttl st.event_dict preds))
                st.active_events st.next_id).1 ++
              (get_ending_events
                (decay (classIds preds)
                  (update_events d now st.ttl st.event_dict preds))
                (get_starting_events st.total_frames
                  (decay (classIds preds)
                    (update_events d now st.ttl st.event_dict preds))
                  st.active_events st.next_id).2.1).1).isEmpty
          then none
          else some
            ((get_starting_events st.total_frames
                (decay (classIds preds)
                  (update_events d now st.ttl st.event_dict preds))
                st.active_events st.next_id).1 ++
              (get_ending_events
                (decay (classIds preds)
                  (update_events d now st.ttl st.event_dict preds))
                (get_starting_events st.total_frames
                  (decay (classIds preds)
                    (update_events d now st.ttl st.event_dict preds))
                  st.active_events st.next_id).2.1).1),
         { st with
            event_dict :=
              (get_ending_events
                (decay (classIds preds)
                  (update_events d now st.ttl st.event_dict preds))
                (get_starting_events st.total_frames
                  (decay (classIds preds)
                    (update_events d now st.ttl st.event_dict preds))
                  st.active_events st.next_id).2.1).2.1,
            active_events :=
              (get_ending_events
                (decay (classIds preds)
                  (update_events d now st.ttl st.event_dict preds))
                (get_starting_events st.total_frames
                  (decay (classIds preds)
                    (update_events d now st.ttl st.event_dict preds))
                  st.active_events st.next_id).2.1).2.2,
            next_id :=
              (get_starting_events st.total_frames
                (decay (classIds preds)
                  (update_events d now st.ttl st.event_dict preds))
                st.active_events st.next_id).2.2 }) := by
  rw [RoIBusinessLogic.process, hd]

/-- C3: when class `c` occurs `k ≥ 2` times in one frame's predictions,
a single `process` call adds `k` to its `detectedFrameCount` when an
Event already existed, and leaves the count at exactly `k` when the first
occurrence of this call created the Event — every occurrence after the
first re-invokes `new_detection`. -/
theorem C3_duplicate_predictions_count_per_occurrence
    (st : RoIBusinessLogic) (now : Nat) (d : Detection) (preds : List Pred)
    (c : String) (k : Nat) (hd : d.predictions = some preds)
    (hnd : (keys st.event_dict).Nodup)
    (hk : classCount c preds = k) (hk2 : 2 ≤ k) :
    (∀ e, getVal c st.event_dict = some e → 1 ≤ e.ttl →
      (getVal c ((st.processOk now d).2).event_dict).map
          Event.num_detected_frames = some (e.num_detected_frames + k))
    ∧ (getVal c st.event_dict = none → 1 ≤ st.ttl →
      (getVal c ((st.processOk now d).2).event_dict).map
          Event.num_detected_frames = some k) := by
  have hdict : ((st.processOk now d).2).event_dict =
      (get_ending_events
        (decay (classIds preds) (update_events d now st.ttl st.event_dict preds))
        (get_starting_events st.total_frames
          (decay (classIds preds)
            (update_events d now st.ttl st.event_dict preds))
          st.active_events st.next_id).2.1).2.1 := by
    rw [RoIBusinessLogic.processOk, process_eq st now d preds hd]
  have hnd2 : (keys (decay (classIds preds)
      (update_events d now st.ttl st.event_dict preds))).Nodup := by
    rw [keys_decay]
    exact update_events_keys_nodup d now st.ttl preds st.event_dict hnd
  have hcon : c ∈ classIds preds := by
    simpa using @contains_classIds_of_classCount c preds (by omega)
  constructor
  · intro e he httl
    rw [hdict, get_ending_events_dict _ _ hnd2]
    have h2 : getVal c (decay (classIds preds)
        (update_events d now st.ttl st.event_dict preds)) =
        some { detection := d,
               num_detected_frames := e.num_detected_frames + k,
               creation_time := e.creation_time, ttl := e.ttl,
               current_ttl := e.ttl } := by
      rw [getVal_decay, getVal_update_events, he]
      simp [hcon, hk, show ¬(k = 0) by omega]
    rw [getVal_filter_some hnd2 h2 (by simp [Event.is_expired]; omega)]
    rfl
  · intro he httl
    rw [hdict, get_ending_events_dict _ _ hnd2]
    have h2 : getVal c (decay (classIds preds)
        (update_events d now st.ttl st.event_dict preds)) =
        some { detection := d, num_detected_frames := k,
               creation_time := now, ttl := st.ttl, current_ttl := st.ttl } := by
      rw [getVal_decay, getVal_update_events, he]
      simp [hcon, hk, show ¬(k = 0) by omega]
    rw [getVal_filter_some hnd2 h2 (by simp [Event.is_expired]; omega)]
    rfl

/-- Witness for C3: a fresh tracker fed one frame that lists class `"a"`
twice ends the call with `detectedFrameCount = 2`. -/
theorem C3_duplicate_predictions_count_per_occurrence_witness :
    Option.map Event.num_detected_frames
      (getVal "a" (((RoIBusinessLogic.init 3 2).processOk 7
        ⟨some [⟨"a"⟩, ⟨"a"⟩]⟩).2).event_dict) = some 2 :=
  (C3_duplicate_predictions_count_per_occurrence (RoIBusinessLogic.init 3 2) 7
      ⟨some [⟨"a"⟩, ⟨"a"⟩]⟩ [⟨"a"⟩, ⟨"a"⟩] "a" 2 rfl (by decide)
      (by rfl) (by norm_num)).2 rfl (by decide)

/-! ### State invariants -/

theorem get_ending_events_dict_eq (ed : List (String × Event))
    (active : List (String × Nat)) :
    (get_ending_events ed active).2.1 =
      ((get_ending_events_loop ed active).2.1).foldl
        (fun acc k => delVal k acc) ed :=
  rfl

theorem get_ending_events_active_eq (ed : List (String × Event))
    (active : List (String × Nat)) :
    (get_ending_events ed active).2.2 = (get_ending_events_loop ed active).2.2 :=
  rfl

theorem get_starting_events_active_nodup (total : Nat) :
    ∀ (entries : List (String × Event)) (active : List (String × Nat))
      (nid : Nat), (keys active).Nodup →
      (keys (get_starting_events total entries active nid).2.1).Nodup := by
  intro entries
  induction entries with
  | nil => intro active nid h; exact h
  | cons hd tl ih =>
    obtain ⟨k, ev⟩ := hd
    intro active nid h
    by_cases hs : is_start_event total active k ev
    · simp only [get_starting_events, if_pos hs]
      exact ih _ _ (keys_setVal_nodup _ _ h)
    · simp only [get_starting_events, if_neg hs]
      exact ih _ _ h

theorem get_starting_events_active_isSome (total : Nat)
    (big : List (String × Event)) :
    ∀ (entries : List (String × Event)) (active : List (String × Nat))
      (nid : Nat),
      (∀ x ∈ entries, x ∈ big) →
      (∀ k, (getVal k active).isSome = true → (getVal k big).isSome = true) →
      ∀ k, (getVal k (get_starting_events total entries active nid).2.1).isSome
          = true → (getVal k big).isSome = true := by
  intro entries
  induction entries with
  | nil => intro active nid _ hact k h; exact hact k h
  | cons hd tl ih =>
    obtain ⟨k0, ev⟩ := hd
    intro active nid hent hact k h
    by_cases hs : is_start_event total active k0 ev
    · simp only [get_starting_events, if_pos hs] at h
      refine ih _ _ (fun x hx => hent x (List.mem_cons_of_mem _ hx)) ?_ k h
      intro k' hk'
      by_cases hk0 : k0 = k'
      · subst hk0
        exact getVal_isSome_of_mem (hent (k0, ev) (List.mem_cons_self _ _))
      · rw [getVal_setVal_ne hk0] at hk'
        exact hact k' hk'
    · simp only [get_starting_events, if_neg hs] at h
      exact ih _ _ (fun x hx => hent x (List.mem_cons_of_mem _ hx)) hact k h

theorem get_starting_events_active_none (total : Nat) (c : String) :
    ∀ (entries : List (String × Event)) (active : List (String × Nat))
      (nid : Nat), getVal c active = none → c ∉ keys entries →
      getVal c (get_starting_events total entries active nid).2.1 = none := by
  intro entries
  induction entries with
  | nil => intro active nid h _; exact h
  | cons hd tl ih =>
    obtain ⟨k0, ev⟩ := hd
    intro active nid h hkeys
    simp only [keys, List.map_cons, List.mem_cons] at hkeys
    push_neg at hkeys
    by_cases hs : is_start_event total active k0 ev
    · simp only [get_starting_events, if_pos hs]
      refine ih _ _ ?_ (by simpa [keys] using hkeys.2)
      rw [getVal_setVal_ne (fun he => hkeys.1 he.symm)]
      exact h
    · simp only [get_starting_events, if_neg hs]
      exact ih _ _ h (by simpa [keys] using hkeys.2)

theorem end_loop_active_sub :
    ∀ (ed : List (String × Event)) (active : List (String × Nat)),
      (keys active).Nodup →
      ∀ k, (getVal k (get_ending_events_loop ed active).2.2).isSome = true →
        (getVal k active).isSome = true
          ∧ k ∉ (get_ending_events_loop ed active).2.1 := by
  intro ed
  induction ed with
  | nil => intro active _ k h; exact ⟨h, by simp [get_ending_events_loop]⟩
  | cons hd tl ih =>
    obtain ⟨k0, ev⟩ := hd
    intro active hnda k h
    rcases hexp : ev.is_expired with _ | _
    · simp only [get_ending_events_loop, hexp, Bool.false_eq_true, if_false]
        at h ⊢
      exact ih active hnda k h
    · rcases hv : getVal k0 active with _ | eid
      · simp only [get_ending_events_loop, hexp, if_true, hv] at h ⊢
        obtain ⟨h1, h2⟩ := ih active hnda k h
        refine ⟨h1, ?_⟩
        simp only [List.mem_cons]
        rintro (rfl | hk)
        · rw [hv] at h1
          simp at h1
        · exact h2 hk
      · simp only [get_ending_events_loop, hexp, if_true, hv] at h ⊢
        obtain ⟨h1, h2⟩ := ih (delVal k0 active) (keys_delVal_nodup _ hnda) k h
        have hk0 : k ≠ k0 := by
          rintro rfl
          rw [getVal_delVal_self _ hnda] at h1
          simp at h1
        rw [getVal_delVal_ne (Ne.symm hk0)] at h1
        refine ⟨h1, ?_⟩
        simp only [List.mem_cons]
        rintro (rfl | hk)
        · exact hk0 rfl
        · exact h2 hk

theorem end_loop_active_nodup :
    ∀ (ed : List (String × Event)) (active : List (String × Nat)),
      (keys active).Nodup →
      (keys (get_ending_events_loop ed active).2.2).Nodup := by
  intro ed
  induction ed with
  | nil => intro active h; exact h
  | cons hd tl ih =>
    obtain ⟨k0, ev⟩ := hd
    intro active h
    rcases hexp : ev.is_expired with _ | _
    · simp only [get_ending_events_loop, hexp, Bool.false_eq_true, if_false]
      exact ih active h
    · rcases hv : getVal k0 active with _ | eid
      · simp only [get_ending_events_loop, hexp, if_true, hv]
        exact ih active h
      · simp only [get_ending_events_loop, hexp, if_true, hv]
        exact ih _ (keys_delVal_nodup _ h)

theorem end_loop_active_none (c : String) :
    ∀ (ed : List (String × Event)) (active : List (String × Nat)),
      getVal c active = none →
      getVal c (get_ending_events_loop ed active).2.2 = none := by
  intro ed
  induction ed with
  | nil => intro active h; exact h
  | cons hd tl ih =>
    obtain ⟨k0, ev⟩ := hd
    intro active h
    rcases hexp : ev.is_expired with _ | _
    · simp only [get_ending_events_loop, hexp, Bool.false_eq_true, if_false]
      exact ih active h
    · rcases hv : getVal k0 active with _ | eid
      · simp only [get_ending_events_loop, hexp, if_true, hv]
        exact ih active h
      · simp only [get_ending_events_loop, hexp, if_true, hv]
        exact ih _ (getVal_delVal_none h)

/-- The well-formedness invariant maintained by `process`: both maps have
duplicate-free keys and every active class is tracked. -/
def GoodState (st : RoIBusinessLogic) : Prop :=
  (keys st.event_dict).Nodup ∧ (keys st.active_events).Nodup ∧
    ∀ k, (getVal k st.active_events).isSome = true →
      (getVal k st.event_dict).isSome = true

theorem processOk_good (st : RoIBusinessLogic) (now : Nat) (d : Detection)
    (h : GoodState st) : GoodState (st.processOk now d).2 := by
  obtain ⟨hnd, hnda, hsub⟩ := h
  rcases hd : d.predictions with _ | preds
  · have heq : st.processOk now d = (none, st) := by
      rw [RoIBusinessLogic.processOk, RoIBusinessLogic.process, hd]
    rw [heq]
    exact ⟨hnd, hnda, hsub⟩
  · rw [RoIBusinessLogic.processOk, process_eq st now d preds hd]
    have hnd2 : (keys (decay (classIds preds)
        (update_events d now st.ttl st.event_dict preds))).Nodup := by
      rw [keys_decay]
      exact update_events_keys_nodup d now st.ttl preds st.event_dict hnd
    have hsub2 : ∀ k, (getVal k st.active_events).isSome = true →
        (getVal k (decay (classIds preds)
          (update_events d now st.ttl st.event_dict preds))).isSome = true := by
      intro k hk
      have h1 := hsub k hk
      rw [getVal_decay, getVal_update_events]
      rcases hg : getVal k st.event_dict with _ | e
      · rw [hg] at h1
        simp at h1
      · simp
    have hnda1 : (keys (get_starting_events st.total_frames
        (decay (classIds preds) (update_events d now st.ttl st.event_dict preds))
        st.active_events st.next_id).2.1).Nodup :=
      get_starting_events_active_nodup _ _ _ _ hnda
    refine ⟨?_, ?_, ?_⟩
    · show (keys ((get_ending_events _ _).2.1)).Nodup
      rw [get_ending_events_dict_eq]
      exact hnd2.sublist (List.Sublist.map Prod.fst (foldl_delVal_sublist _ _))
    · show (keys ((get_ending_events _ _).2.2)).Nodup
      rw [get_ending_events_active_eq]
      exact end_loop_active_nodup _ _ hnda1
    · intro k hk
      rw [get_ending_events_active_eq] at hk
      obtain ⟨h1, h2⟩ := end_loop_active_sub _ _ hnda1 k hk
      have h3 := get_starting_events_active_isSome st.total_frames
        (decay (classIds preds) (update_events d now st.ttl st.event_dict preds))
        (decay (classIds preds) (update_events d now st.ttl st.event_dict preds))
        st.active_events st.next_id (fun x hx => hx) hsub2 k h1
      show (getVal k ((get_ending_events _ _).2.1)).isSome = true
      rw [get_ending_events_dict_eq, getVal_foldl_delVal_not_mem h2]
      exact h3

theorem runAll_good (now : Nat) :
    ∀ (ds : List Detection) (st : RoIBusinessLogic), GoodState st →
      GoodState (runAll now st ds) := by
  intro ds
  induction ds with
  | nil => intro st h; exact h
  | cons d ds ih =>
    intro st h
    exact ih _ (processOk_good st now d h)

theorem init_good (N : Nat) (L : Int) : GoodState (RoIBusinessLogic.init N L) :=
  ⟨List.nodup_nil, List.nodup_nil, fun k h => by simp [RoIBusinessLogic.init] at h⟩

/-- C4 counterexample: after the run `[oneClass "car"]` on a tracker with
`requiredFrameCount = 1`, the active map is non-empty and *every* tracked
class is active — the key set of `activeEventIdByClass` equals that of
`eventsByClass`, so it is not a strict subset. -/
theorem C4_strict_subset_counterexample :
    (runAll 0 (RoIBusinessLogic.init 1 2) [oneClass "car"]).active_events ≠ []
    ∧ ¬ ∃ k, (getVal k (runAll 0 (RoIBusinessLogic.init 1 2)
          [oneClass "car"]).event_dict).isSome = true
        ∧ (getVal k (runAll 0 (RoIBusinessLogic.init 1 2)
          [oneClass "car"]).active_events).isSome = false := by
  have hst : runAll 0 (RoIBusinessLogic.init 1 2) [oneClass "car"] =
      ⟨1, 2, [("car", ⟨oneClass "car", 1, 0, 2, 2⟩)], [("car", 0)], 1⟩ := by
    rfl
  rw [hst]
  refine ⟨by simp, ?_⟩
  rintro ⟨k, h1, h2⟩
  by_cases hk : "car" = k
  · rw [getVal_cons, if_pos hk] at h2
    simp at h2
  · rw [getVal_cons, if_neg hk, getVal_nil] at h1
    simp at h1

/-- C4 (amended): after every sequence of `process` calls on a freshly
constructed tracker, the key set of `activeEventIdByClass` is a subset
(not necessarily strict) of the key set of `eventsByClass`: every active
class is tracked. -/
theorem C4_active_keys_subset_of_event_keys (N : Nat) (L : Int) (now : Nat)
    (ds : List Detection) (k : String)
    (h : (getVal k (runAll now (RoIBusinessLogic.init N L) ds).active_events).isSome
      = true) :
    (getVal k (runAll now (RoIBusinessLogic.init N L) ds).event_dict).isSome
      = true :=
  (runAll_good now ds (RoIBusinessLogic.init N L) (init_good N L)).2.2 k h

/-- Witness for the amended C4 on the run `[oneClass "car"]`. -/
theorem C4_active_keys_subset_of_event_keys_witness :
    (getVal "car" (runAll 0 (RoIBusinessLogic.init 1 2)
        [oneClass "car"]).event_dict).isSome = true :=
  C4_active_keys_subset_of_event_keys 1 2 0 [oneClass "car"] "car" (by rfl)

theorem processOk_live (st : RoIBusinessLogic) (now : Nat) (d : Detection)
    (hnd : (keys st.event_dict).Nodup)
    (hlive : ∀ ke ∈ st.event_dict, ke.2.is_expired = false) :
    ∀ ke ∈ (st.processOk now d).2.event_dict, ke.2.is_expired = false := by
  rcases hd : d.predictions with _ | preds
  · have heq : st.processOk now d = (none, st) := by
      rw [RoIBusinessLogic.processOk, RoIBusinessLogic.process, hd]
    rw [heq]
    exact hlive
  · rw [RoIBusinessLogic.processOk, process_eq st now d preds hd]
    intro ke hke
    have hnd2 : (keys (decay (classIds preds)
        (update_events d now st.ttl st.event_dict preds))).Nodup := by
      rw [keys_decay]
      exact update_events_keys_nodup d now st.ttl preds st.event_dict hnd
    rw [show ({ st with
          event_dict := (get_ending_events
            (decay (classIds preds)
              (update_events d now st.ttl st.event_dict preds))
            (get_starting_events st.total_frames
              (decay (classIds preds)
                (update_events d now st.ttl st.event_dict preds))
              st.active_events st.next_id).2.1).2.1,
          active_events := (get_ending_events
            (decay (classIds preds)
              (update_events d now st.ttl st.event_dict preds))
            (get_starting_events st.total_frames
              (decay (classIds preds)
                (update_events d now st.ttl st.event_dict preds))
              st.active_events st.next_id).2.1).2.2,
          next_id := (get_starting_events st.total_frames
            (decay (classIds preds)
              (update_events d now st.ttl st.event_dict preds))
            st.active_events st.next_id).2.2 } : RoIBusinessLogic).event_dict =
        (get_ending_events
          (decay (classIds preds)
            (update_events d now st.ttl st.event_dict preds))
          (get_starting_events st.total_frames
            (decay (classIds preds)
              (update_events d now st.ttl st.event_dict preds))
            st.active_events st.next_id).2.1).2.1 from rfl,
      get_ending_events_dict _ _ hnd2] at hke
    have := (List.mem_filter.1 hke).2
    simpa using this

/-- C9: on a tracker built with `timeToLiveLimit = L ≥ 1`, after any
sequence of `process` calls every `Event` still present in
`eventsByClass` satisfies `is_expired = false`: no expired event survives
a `process` call boundary. -/
theorem C9_no_expired_event_survives (N : Nat) (L : Int) (now : Nat)
    (ds : List Detection) (hL : 1 ≤ L) :
    ∀ ke ∈ (runAll now (RoIBusinessLogic.init N L) ds).event_dict,
      ke.2.is_expired = false := by
  suffices h : ∀ (ds : List Detection) (st : RoIBusinessLogic), GoodState st →
      (∀ ke ∈ st.event_dict, ke.2.is_expired = false) →
      ∀ ke ∈ (runAll now st ds).event_dict, ke.2.is_expired = false by
    exact h ds (RoIBusinessLogic.init N L) (init_good N L) (by simp [RoIBusinessLogic.init])
  intro ds
  induction ds with
  | nil => intro st _ hlive; exact hlive
  | cons d ds ih =>
    intro st hgood hlive
    exact ih _ (processOk_good st now d hgood)
      (processOk_live st now d hgood.1 hlive)

/-- Witness for C9: after one frame of `oneClass "car"` the surviving
event is not expired. -/
theorem C9_no_expired_event_survives_witness :
    Event.is_expired ⟨oneClass "car", 1, 0, 2, 2⟩ = false :=
  C9_no_expired_event_survives 3 2 0 [oneClass "car"] (by norm_num)
    ("car", ⟨oneClass "car", 1, 0, 2, 2⟩) (by decide)

/-! ### Congruence lemmas: a tracked class whose checks all fail is
invisible to the signal-producing phases -/

theorem setVal_delVal_comm {α : Type} {k c : String} (hne : k ≠ c) (v : α) :
    ∀ l : List (String × α), setVal k v (delVal c l) = delVal c (setVal k v l) := by
  intro l
  induction l with
  | nil =>
    show [(k, v)] = delVal c [(k, v)]
    rw [delVal, if_neg hne]
    rfl
  | cons hd tl ih =>
    obtain ⟨k0, v0⟩ := hd
    by_cases h0c : k0 = c
    · subst h0c
      rw [delVal, if_pos rfl, setVal, if_neg (Ne.symm hne), delVal, if_pos rfl]
    · by_cases h0k : k0 = k
      · subst h0k
        rw [delVal, if_neg h0c, setVal, if_pos rfl, setVal, if_pos rfl, delVal,
          if_neg h0c]
      · rw [delVal, if_neg h0c, setVal, if_neg h0k, setVal, if_neg h0k, delVal,
          if_neg h0c, ih]

theorem delVal_append_ne {α : Type} {k c : String} (hne : k ≠ c) (v : α) :
    ∀ l : List (String × α), delVal c (l ++ [(k, v)]) = delVal c l ++ [(k, v)] := by
  intro l
  induction l with
  | nil => simp [delVal, hne]
  | cons hd tl ih =>
    obtain ⟨k0, v0⟩ := hd
    by_cases h0c : k0 = c
    · rw [List.cons_append, delVal, if_pos h0c, delVal, if_pos h0c]
    · rw [List.cons_append, delVal, if_neg h0c, delVal, if_neg h0c,
        List.cons_append, ih]

theorem update_events_delVal (d : Detection) (now : Nat) (L : Int) (c : String) :
    ∀ (preds : List Pred) (ed : List (String × Event)),
      (∀ p ∈ preds, p.classId ≠ c) →
      update_events d now L (delVal c ed) preds =
        delVal c (update_events d now L ed preds) := by
  intro preds
  induction preds with
  | nil => intro ed _; rfl
  | cons p ps ih =>
    intro ed hne
    have hpc : p.classId ≠ c := hne p (List.mem_cons_self _ _)
    rcases hp : getVal p.classId ed with _ | e
    · have hstep1 : update_events d now L ed (p :: ps) =
          update_events d now L (ed ++ [(p.classId, Event.create d now L)]) ps := by
        simp [update_events, List.foldl, hp]
      have hstep2 : update_events d now L (delVal c ed) (p :: ps) =
          update_events d now L
            (delVal c ed ++ [(p.classId, Event.create d now L)]) ps := by
        simp [update_events, List.foldl, getVal_delVal_ne (Ne.symm hpc), hp]
      rw [hstep1, hstep2, ← delVal_append_ne hpc]
      exact ih _ (fun q hq => hne q (List.mem_cons_of_mem _ hq))
    · have hstep1 : update_events d now L ed (p :: ps) =
          update_events d now L (setVal p.classId (e.new_detection d) ed) ps := by
        simp [update_events, List.foldl, hp]
      have hstep2 : update_events d now L (delVal c ed) (p :: ps) =
          update_events d now L
            (setVal p.classId (e.new_detection d) (delVal c ed)) ps := by
        simp [update_events, List.foldl, getVal_delVal_ne (Ne.symm hpc), hp]
      rw [hstep1, hstep2, setVal_delVal_comm hpc]
      exact ih _ (fun q hq => hne q (List.mem_cons_of_mem _ hq))

theorem decay_delVal (cur : List String) (c : String) :
    ∀ ed : List (String × Event),
      decay cur (delVal c ed) = delVal c (decay cur ed) := by
  intro ed
  induction ed with
  | nil => rfl
  | cons hd tl ih =>
    obtain ⟨k0, ev⟩ := hd
    show decay cur (delVal c ((k0, ev) :: tl)) =
      delVal c ((if cur.contains k0 then (k0, ev) else (k0, ev.no_detection)) ::
        decay cur tl)
    by_cases h0c : k0 = c
    · rw [delVal, if_pos h0c]
      by_cases hcon : cur.contains k0
      · rw [if_pos hcon, delVal, if_pos h0c]
      · rw [if_neg hcon, delVal, if_pos h0c]
    · rw [delVal, if_neg h0c]
      show ((if cur.contains k0 then (k0, ev) else (k0, ev.no_detection)) ::
          decay cur (delVal c tl)) = _
      by_cases hcon : cur.contains k0
      · rw [if_pos hcon, delVal, if_neg h0c, ih]
      · rw [if_neg hcon, delVal, if_neg h0c, ih]

theorem get_starting_events_delVal (total : Nat) (c : String) :
    ∀ (entries : List (String × Event)) (active : List (String × Nat))
      (nid : Nat),
      (∀ e', (c, e') ∈ entries → e'.num_detected_frames < total) →
      get_starting_events total (delVal c entries) active nid =
        get_starting_events total entries active nid := by
  intro entries
  induction entries with
  | nil => intro active nid _; rfl
  | cons hd tl ih =>
    obtain ⟨k0, ev⟩ := hd
    intro active nid hnum
    by_cases h0c : k0 = c
    · subst h0c
      rw [delVal, if_pos rfl]
      have hs : is_start_event total active k0 ev = false := by
        rw [is_start_event, if_pos (hnum ev (List.mem_cons_self _ _))]
      rw [get_starting_events, hs]
      simp only [Bool.false_eq_true, if_false]
    · rw [delVal, if_neg h0c]
      by_cases hs : is_start_event total active k0 ev
      · rw [get_starting_events, hs, get_starting_events, hs]
        simp only [if_true]
        rw [ih _ _ (fun e' he' => hnum e' (List.mem_cons_of_mem _ he'))]
      · rw [get_starting_events, get_starting_events]
        simp only [hs, Bool.false_eq_true, if_false]
        exact ih _ _ (fun e' he' => hnum e' (List.mem_cons_of_mem _ he'))

theorem get_starting_events_active_none_of_no_start (total : Nat) (c : String) :
    ∀ (entries : List (String × Event)) (active : List (String × Nat))
      (nid : Nat), getVal c active = none →
      (∀ e', (c, e') ∈ entries → e'.num_detected_frames < total) →
      getVal c (get_starting_events total entries active nid).2.1 = none := by
  intro entries
  induction entries with
  | nil => intro active nid h _; exact h
  | cons hd tl ih =>
    obtain ⟨k0, ev⟩ := hd
    intro active nid h hnum
    by_cases hs : is_start_event total active k0 ev
    · have h0c : k0 ≠ c := by
        rintro rfl
        rw [is_start_event, if_pos (hnum ev (List.mem_cons_self _ _))] at hs
        exact absurd hs (by simp)
      simp only [get_starting_events, if_pos hs]
      refine ih _ _ ?_ (fun e' he' => hnum e' (List.mem_cons_of_mem _ he'))
      rw [getVal_setVal_ne h0c]
      exact h
    · simp only [get_starting_events, if_neg hs]
      exact ih _ _ h (fun e' he' => hnum e' (List.mem_cons_of_mem _ he'))

theorem get_ending_events_loop_delVal (c : String) :
    ∀ (ed : List (String × Event)) (active : List (String × Nat)),
      getVal c active = none →
      (∀ e', (c, e') ∈ ed → e'.is_expired = true) →
      (get_ending_events_loop (delVal c ed) active).1 =
          (get_ending_events_loop ed active).1
        ∧ (get_ending_events_loop (delVal c ed) active).2.2 =
          (get_ending_events_loop ed active).2.2 := by
  intro ed
  induction ed with
  | nil => intro active _ _; exact ⟨rfl, rfl⟩
  | cons hd tl ih =>
    obtain ⟨k0, ev⟩ := hd
    intro active hact hexp
    by_cases h0c : k0 = c
    · subst h0c
      rw [delVal, if_pos rfl]
      have he : ev.is_expired = true := hexp ev (List.mem_cons_self _ _)
      constructor
      · simp only [get_ending_events_loop, he, if_true, hact]
      · simp only [get_ending_events_loop, he, if_true, hact]
    · rw [delVal, if_neg h0c]
      rcases he : ev.is_expired with _ | _
      · simp only [get_ending_events_loop, he, Bool.false_eq_true, if_false]
        exact ih active hact (fun e' he' => hexp e' (List.mem_cons_of_mem _ he'))
      · rcases hv : getVal k0 active with _ | eid
        · simp only [get_ending_events_loop, he, if_true, hv]
          obtain ⟨h1, h2⟩ := ih active hact
            (fun e' he' => hexp e' (List.mem_cons_of_mem _ he'))
          exact ⟨by rw [h1], by rw [h2]⟩
        · simp only [get_ending_events_loop, he, if_true, hv]
          obtain ⟨h1, h2⟩ := ih (delVal k0 active) (getVal_delVal_none hact)
            (fun e' he' => hexp e' (List.mem_cons_of_mem _ he'))
          exact ⟨by rw [h1], by rw [h2]⟩

theorem filter_delVal {α : Type} (q : String × α → Bool) (c : String) :
    ∀ l : List (String × α), (∀ v, (c, v) ∈ l → q (c, v) = false) →
      (delVal c l).filter q = l.filter q := by
  intro l
  induction l with
  | nil => intro _; rfl
  | cons hd tl ih =>
    obtain ⟨k0, v0⟩ := hd
    intro hq
    by_cases h0c : k0 = c
    · subst h0c
      rw [delVal, if_pos rfl,
        List.filter_cons_of_neg (by simp [hq v0 (List.mem_cons_self _ _)])]
    · rw [delVal, if_neg h0c]
      rcases hq0 : q (k0, v0) with _ | _
      · rw [List.filter_cons_of_neg (by simp [hq0]),
          List.filter_cons_of_neg (by simp [hq0])]
        exact ih (fun v hv => hq v (List.mem_cons_of_mem _ hv))
      · rw [List.filter_cons_of_pos hq0, List.filter_cons_of_pos hq0,
          ih (fun v hv => hq v (List.mem_cons_of_mem _ hv))]

theorem get_ending_events_sigs_eq (ed : List (String × Event))
    (active : List (String × Nat)) :
    (get_ending_events ed active).1 = (get_ending_events_loop ed active).1 :=
  rfl

theorem processOk_eq_of_process {st : RoIBusinessLogic} {now : Nat}
    {d : Detection} {out : Option (List Signal)} {st' : RoIBusinessLogic}
    (h : st.process now d = Except.ok (out, st')) :
    st.processOk now d = (out, st') := by
  rw [RoIBusinessLogic.processOk, h]

/-- C8: a class whose `Event` expires in this call without the class ever
having been active (its `detectedFrameCount` stayed below
`requiredFrameCount`) is removed from `eventsByClass`, never enters
`activeEventIdByClass`, and contributes no signal: the call returns the
very same output and final maps as it would on a tracker that had never
tracked the class — in particular, no Ended signal is emitted for it. -/
theorem C8_never_started_expiry_is_silent (st : RoIBusinessLogic) (now : Nat)
    (d : Detection) (preds : List Pred) (c : String) (e : Event)
    (hd : d.predictions = some preds)
    (hnd : (keys st.event_dict).Nodup)
    (hc : getVal c st.event_dict = some e)
    (hact : getVal c st.active_events = none)
    (hnum : e.num_detected_frames < st.total_frames)
    (hnotin : c ∉ classIds preds)
    (hexp : e.current_ttl ≤ 1) :
    getVal c ((st.processOk now d).2).event_dict = none
    ∧ getVal c ((st.processOk now d).2).active_events = none
    ∧ (st.processOk now d).1 =
        (RoIBusinessLogic.processOk
          { st with event_dict := delVal c st.event_dict } now d).1
    ∧ ((st.processOk now d).2).event_dict =
        ((RoIBusinessLogic.processOk
          { st with event_dict := delVal c st.event_dict } now d).2).event_dict
    ∧ ((st.processOk now d).2).active_events =
        ((RoIBusinessLogic.processOk
          { st with event_dict := delVal c st.event_dict } now d).2).active_events := by
  have hne' : ∀ p ∈ preds, p.classId ≠ c := by
    intro p hp he
    apply hnotin
    rw [← he]
    exact List.mem_map_of_mem Pred.classId hp
  have hcontains : (classIds preds).contains c = false := by
    cases hb : (classIds preds).contains c
    · rfl
    · exact absurd (by simpa using hb) hnotin
  have hcnt0 : classCount c preds = 0 :=
    classCount_eq_zero_of_not_contains hcontains
  have hnd1 : (keys (update_events d now st.ttl st.event_dict preds)).Nodup :=
    update_events_keys_nodup d now st.ttl preds st.event_dict hnd
  have hnd2 : (keys (decay (classIds preds)
      (update_events d now st.ttl st.event_dict preds))).Nodup := by
    rw [keys_decay]
    exact hnd1
  have hged1 : getVal c (update_events d now st.ttl st.event_dict preds) =
      some e := by
    rw [getVal_update_events, hc]
    simp [hcnt0]
  have hged2 : getVal c (decay (classIds preds)
      (update_events d now st.ttl st.event_dict preds)) =
      some e.no_detection := by
    rw [getVal_decay, hged1]
    show some (if (classIds preds).contains c then e else e.no_detection) =
      some e.no_detection
    rw [hcontains]
    simp
  have hmem2 : ∀ e', (c, e') ∈ decay (classIds preds)
      (update_events d now st.ttl st.event_dict preds) →
      e' = e.no_detection := by
    intro e' he'
    have h1 := getVal_of_mem_of_nodup hnd2 he'
    rw [hged2] at h1
    exact (Option.some.inj h1).symm
  have hnumall : ∀ e', (c, e') ∈ decay (classIds preds)
      (update_events d now st.ttl st.event_dict preds) →
      e'.num_detected_frames < st.total_frames := by
    intro e' he'
    rw [hmem2 e' he']
    simpa [Event.no_detection] using hnum
  have hexpall : ∀ e', (c, e') ∈ decay (classIds preds)
      (update_events d now st.ttl st.event_dict preds) →
      e'.is_expired = true := by
    intro e' he'
    rw [hmem2 e' he']
    simp [Event.is_expired, Event.no_detection]
    omega
  have hup2 : update_events d now st.ttl (delVal c st.event_dict) preds =
      delVal c (update_events d now st.ttl st.event_dict preds) :=
    update_events_delVal d now st.ttl c preds st.event_dict hne'
  have hdec2 : decay (classIds preds)
      (delVal c (update_events d now st.ttl st.event_dict preds)) =
      delVal c (decay (classIds preds)
        (update_events d now st.ttl st.event_dict preds)) :=
    decay_delVal _ _ _
  have hstart2 : get_starting_events st.total_frames
      (delVal c (decay (classIds preds)
        (update_events d now st.ttl st.event_dict preds)))
      st.active_events st.next_id =
      get_starting_events st.total_frames
        (decay (classIds preds)
          (update_events d now st.ttl st.event_dict preds))
        st.active_events st.next_id :=
    get_starting_events_delVal _ _ _ _ _ hnumall
  have hact1 : getVal c (get_starting_events st.total_frames
      (decay (classIds preds)
        (update_events d now st.ttl st.event_dict preds))
      st.active_events st.next_id).2.1 = none :=
    get_starting_events_active_none_of_no_start _ _ _ _ _ hact hnumall
  have hend2 := get_ending_events_loop_delVal c
    (decay (classIds preds) (update_events d now st.ttl st.event_dict preds))
    (get_starting_events st.total_frames
      (decay (classIds preds)
        (update_events d now st.ttl st.event_dict preds))
      st.active_events st.next_id).2.1 hact1 hexpall
  have hfilter : (delVal c (decay (classIds preds)
        (update_events d now st.ttl st.event_dict preds))).filter
          (fun kv => !kv.2.is_expired) =
      (decay (classIds preds)
        (update_events d now st.ttl st.event_dict preds)).filter
          (fun kv => !kv.2.is_expired) := by
    refine filter_delVal _ c _ (fun v hv => ?_)
    simp [hexpall v hv]
  have hPL := processOk_eq_of_process (process_eq st now d preds hd)
  have hPR := processOk_eq_of_process
    (process_eq { st with event_dict := delVal c st.event_dict } now d preds hd)
  refine ⟨?_, ?_, ?_, ?_, ?_⟩
  · rw [hPL]
    dsimp only
    rw [get_ending_events_dict _ _ hnd2]
    refine getVal_filter_none hnd2 hged2 ?_
    simp [hexpall e.no_detection (mem_of_getVal hged2)]
  · rw [hPL]
    dsimp only
    rw [get_ending_events_active_eq]
    exact end_loop_active_none c _ _ hact1
  · rw [hPL, hPR]
    dsimp only
    rw [hup2, hdec2, hstart2, get_ending_events_sigs_eq,
      get_ending_events_sigs_eq, hend2.1]
  · rw [hPL, hPR]
    dsimp only
    rw [hup2, hdec2, hstart2, get_ending_events_dict _ _ hnd2,
      get_ending_events_dict _ _ (keys_delVal_nodup c hnd2), hfilter]
  · rw [hPL, hPR]
    dsimp only
    rw [hup2, hdec2, hstart2, get_ending_events_active_eq,
      get_ending_events_active_eq, hend2.2]

/-- Witness for C8: spec Scenario C — class `"dog"` seen once with
`requiredFrameCount = 5`, `timeToLiveLimit = 1`, then an empty frame. -/
theorem C8_never_started_expiry_is_silent_witness :
    getVal "dog" ((RoIBusinessLogic.processOk
        ⟨5, 1, [("dog", ⟨oneClass "dog", 1, 0, 1, 1⟩)], [], 0⟩ 9
        emptyFrame).2).event_dict = none
    ∧ getVal "dog" ((RoIBusinessLogic.processOk
        ⟨5, 1, [("dog", ⟨oneClass "dog", 1, 0, 1, 1⟩)], [], 0⟩ 9
        emptyFrame).2).active_events = none
    ∧ (RoIBusinessLogic.processOk
        ⟨5, 1, [("dog", ⟨oneClass "dog", 1, 0, 1, 1⟩)], [], 0⟩ 9
        emptyFrame).1 =
      (RoIBusinessLogic.processOk
        ⟨5, 1, delVal "dog" [("dog", ⟨oneClass "dog", 1, 0, 1, 1⟩)], [], 0⟩ 9
        emptyFrame).1
    ∧ ((RoIBusinessLogic.processOk
        ⟨5, 1, [("dog", ⟨oneClass "dog", 1, 0, 1, 1⟩)], [], 0⟩ 9
        emptyFrame).2).event_dict =
      ((RoIBusinessLogic.processOk
        ⟨5, 1, delVal "dog" [("dog", ⟨oneClass "dog", 1, 0, 1, 1⟩)], [], 0⟩ 9
        emptyFrame).2).event_dict
    ∧ ((RoIBusinessLogic.processOk
        ⟨5, 1, [("dog", ⟨oneClass "dog", 1, 0, 1, 1⟩)], [], 0⟩ 9
        emptyFrame).2).active_events =
      ((RoIBusinessLogic.processOk
        ⟨5, 1, delVal "dog" [("dog", ⟨oneClass "dog", 1, 0, 1, 1⟩)], [], 0⟩ 9
        emptyFrame).2).active_events :=
  C8_never_started_expiry_is_silent
    ⟨5, 1, [("dog", ⟨oneClass "dog", 1, 0, 1, 1⟩)], [], 0⟩ 9 emptyFrame []
    "dog" ⟨oneClass "dog", 1, 0, 1, 1⟩ rfl (by decide) rfl rfl (by decide)
    (by simp [classIds]) (by decide)

end RoI
